import Mathlib

/-!
Verification of the aspect-aggregation core of the review-category dashboard.

The Python sources are shallowly embedded as Lean functions:

* `pyStrip`, `pySplitComma`, `startsBracket`, `endsBracket` model the Python
  string primitives `str.strip()`, `str.split(",")`, `str.startswith("[")`,
  `str.endswith("]")` used by the parsing code, working on the character list
  of the string.
* `litEvalList` models `ast.literal_eval` restricted to the inputs that occur
  in this system: Python list literals whose elements are quoted string
  literals (with backslash escapes), e.g. `"['Product/Price', 'Service/Staff']"`.
  Inputs that `ast.literal_eval` would reject raise an exception in Python;
  the model returns `none` for them.
* `parse_aspects` embeds `parse_aspects` from `pages/1_Data_Upload.py`,
  `process_csv_aspects` embeds the per-cell aspect handling of `process_csv`
  in `utils.py`, and `loadParseCell` embeds the per-cell lambda of
  `load_category_data` in `utils.py`.
* `analyze_category_aspects` and `create_aspect_category_matrix` embed the
  functions of the same name from `utils.py`, over a `CatFrame` model of the
  pandas DataFrame (a row list plus a flag recording whether the
  `aspects_parsed` column exists); `Counter` is modelled by an insertion
  ordered association list, `Counter.most_common` / `DataFrame.nlargest` by a
  stable descending insertion sort (CPython documents `sorted` as stable and
  `heapq.nlargest` as equivalent to a reverse-sorted prefix; pandas `nlargest`
  uses a mergesort-based stable selection with `keep="first"`).
-/

/-! ### Python string primitives -/

/-- Model of `str.strip()` on the character list: drop whitespace from both
ends. -/
def pyStripChars (cs : List Char) : List Char :=
  ((cs.dropWhile Char.isWhitespace).reverse.dropWhile Char.isWhitespace).reverse

/-- Model of `str.strip()`. -/
def pyStrip (s : String) : String :=
  String.mk (pyStripChars s.data)

/-- Model of `str.split(",")` on the character list: split at every comma,
producing one (possibly empty) part more than the number of commas. -/
def splitCommaChars : List Char → List (List Char)
  | [] => [[]]
  | c :: cs =>
    if c = ',' then [] :: splitCommaChars cs
    else
      match splitCommaChars cs with
      | [] => [[c]]
      | p :: ps => (c :: p) :: ps

/-- Model of `str.split(",")`. -/
def pySplitComma (s : String) : List String :=
  (splitCommaChars s.data).map String.mk

/-- Model of `str.startswith("[")`. -/
def startsBracket (s : String) : Bool :=
  match s.data with
  | '[' :: _ => true
  | _ => false

/-- Model of `str.endswith("]")`. -/
def endsBracket (s : String) : Bool :=
  match s.data.getLast? with
  | some ']' => true
  | _ => false

/-! ### Model of `ast.literal_eval` on list-of-string literals -/

/-- Translation of one backslash escape inside a Python string literal: the
escapes `\\`, `\'`, `\"`, `\n`, `\t` are resolved; any other escape keeps the
backslash, as CPython does. -/
def escChars (e : Char) : List Char :=
  if e = '\\' then ['\\']
  else if e = '\'' then ['\'']
  else if e = '"' then ['"']
  else if e = 'n' then ['\n']
  else if e = 't' then ['\t']
  else ['\\', e]

/-- Scan of the body of a quoted string literal with quote character `q`,
returning the decoded characters and the input remaining after the closing
quote; `none` when the literal is unterminated. -/
def takeStrBody (q : Char) : List Char → Option (List Char × List Char)
  | [] => none
  | c :: cs =>
    if c = q then some ([], cs)
    else if c = '\\' then
      match cs with
      | [] => none
      | e :: cs2 =>
        match takeStrBody q cs2 with
        | none => none
        | some (s, rest) => some (escChars e ++ s, rest)
    else
      match takeStrBody q cs with
      | none => none
      | some (s, rest) => some (c :: s, rest)

/-- Scan of one quoted string literal (single or double quoted). -/
def takeStrLit : List Char → Option (List Char × List Char)
  | [] => none
  | c :: cs =>
    if c = '\'' ∨ c = '"' then takeStrBody c cs
    else none

/-- Scan of the items of a list literal after the opening bracket: string
literals separated by commas, allowing a trailing comma, until the closing
bracket. `fuel` bounds the recursion by the input length. -/
def takeItems : Nat → List Char → Option (List String × List Char)
  | 0, _ => none
  | fuel + 1, cs =>
    let cs1 := cs.dropWhile Char.isWhitespace
    match cs1 with
    | ']' :: rest => some ([], rest)
    | _ =>
      match takeStrLit cs1 with
      | none => none
      | some (item, rest) =>
        let rest1 := rest.dropWhile Char.isWhitespace
        match rest1 with
        | ']' :: rest2 => some ([String.mk item], rest2)
        | ',' :: rest2 =>
          match takeItems fuel rest2 with
          | none => none
          | some (items, rest3) => some (String.mk item :: items, rest3)
        | _ => none

/-- Model of `ast.literal_eval` restricted to list literals whose elements are
quoted string literals: leading and trailing whitespace is allowed, the result
is the list of decoded strings. Every input outside this shape (on which
`ast.literal_eval` raises, or which this system never produces, such as
literals of non-string element type) yields `none`. -/
def litEvalList (s : String) : Option (List String) :=
  match s.data.dropWhile Char.isWhitespace with
  | '[' :: rest =>
    match takeItems (rest.length + 1) rest with
    | none => none
    | some (items, rest2) =>
      if rest2.dropWhile Char.isWhitespace = [] then some items else none
  | _ => none

/-! ### The three aspect-field parsing routines of the source -/

/-- Comma-split branch of `parse_aspects`
(`[a.strip() for a in val.split(",") if a.strip()]`): split at commas, strip
each token, keep the non-empty ones. -/
def commaSplitTokens (val : String) : List String :=
  ((pySplitComma val).map pyStrip).filter (fun t => t ≠ "")

/-- Embedding of `parse_aspects` from `pages/1_Data_Upload.py` (both textually
identical copies): a value bracketed on both ends is decoded with
`ast.literal_eval`, any exception is caught and turned into `[]`; any other
value is comma-split. The surrounding `try` makes the function total, which
the embedding reflects by returning a plain list. -/
def parse_aspects (val : String) : List String :=
  if startsBracket val && endsBracket val then
    match litEvalList val with
    | some l => l
    | none => []
  else commaSplitTokens val

/-- Python cell value of the raw `aspects` column: a string, or any non-string
value (NaN, numbers, ...). -/
inductive PyVal where
  | str (s : String)
  | nonstr
deriving DecidableEq, Repr

/-- Embedding of the per-cell aspect handling in `process_csv` (`utils.py`):
`df["aspects"].str.split(",")` followed by
`[item.strip() for item in x] if isinstance(x, list) else []`. String cells
are split at commas and each token stripped — empty tokens are kept; non-string
cells (where `.str.split` yields NaN) become `[]`. -/
def process_csv_aspects : PyVal → List String
  | PyVal.str s => (pySplitComma s).map pyStrip
  | PyVal.nonstr => []

/-- Embedding of the per-cell lambda of `load_category_data` (`utils.py`):
`ast.literal_eval(x) if isinstance(x, str) and x.strip().startswith("[") else []`.
No per-cell exception handling exists there: a failing `ast.literal_eval`
aborts the whole load (the surrounding `try` of `load_category_data` returns
`None`), which the embedding records as `Except.error ()`. -/
def loadParseCell : PyVal → Except Unit (List String)
  | PyVal.str s =>
    if startsBracket (pyStrip s) then
      match litEvalList s with
      | some l => Except.ok l
      | none => Except.error ()
    else Except.ok []
  | PyVal.nonstr => Except.ok []

example : litEvalList "['Product/Price', 'Service/Staff']" =
    some ["Product/Price", "Service/Staff"] := by decide
example : litEvalList "[]" = some [] := by decide
example : litEvalList "[a]" = none := by decide
example : litEvalList "['a', 'b',]" = some ["a", "b"] := by decide
example : litEvalList " ['a'] " = some ["a"] := by decide
example : litEvalList "['a'] x" = none := by decide
example : litEvalList "[unterminated" = none := by decide
example : parse_aspects "a, b, c" = ["a", "b", "c"] := by decide
example : parse_aspects "['a','b']" = ["a", "b"] := by decide
example : parse_aspects "" = [] := by decide
example : parse_aspects "  " = [] := by decide
example : parse_aspects "[a]" = [] := by decide
example : process_csv_aspects (PyVal.str "a, ,b") = ["a", "", "b"] := by decide
example : loadParseCell (PyVal.str "a, b") = Except.ok [] := by rfl
example : loadParseCell (PyVal.str "[a, b]") = Except.error () := by rfl

/-! ### Counter and stable descending sort -/

/-- Model of `Counter[x] += 1` on an insertion-ordered association list: the
entry with key `x` is incremented in place, a missing key is appended with
count `1` (CPython dicts preserve insertion order). -/
def counterAdd : List (String × Nat) → String → List (String × Nat)
  | [], x => [(x, 1)]
  | (k, v) :: rest, x =>
    if k = x then (k, v + 1) :: rest else (k, v) :: counterAdd rest x

/-- Model of `Counter.update(xs)`: one `counterAdd` per element, in order. -/
def counterUpdate (c : List (String × Nat)) (xs : List String) :
    List (String × Nat) :=
  xs.foldl counterAdd c

/-- Stable descending insertion step: `x` is placed before the first element
whose key is not larger, so earlier elements keep their position among equal
keys. -/
def insertDescBy {α β : Type} [LinearOrder β] (key : α → β) (x : α) :
    List α → List α
  | [] => [x]
  | y :: ys =>
    if key x < key y then y :: insertDescBy key x ys else x :: y :: ys

/-- Stable sort in descending key order. CPython documents
`sorted(..., reverse=True)` as stable, and `Counter.most_common` /
`heapq.nlargest` / pandas `nlargest(keep="first")` as (equivalent to) its
prefix, so the unique stable descending permutation is the faithful model for
all of them. -/
def sortDescBy {α β : Type} [LinearOrder β] (key : α → β) :
    List α → List α
  | [] => []
  | x :: xs => insertDescBy key x (sortDescBy key xs)

/-! ### DataFrame model and the two aggregation functions -/

/-- Model of one row of the loaded category DataFrame, restricted to the
columns the aggregation code reads: `name`, `aspectsCount`, and the
`aspects_parsed` cell (`some l` when the cell holds a Python list, `none` for
any non-list cell such as NaN). -/
structure CategoryRow where
  name : String
  aspectsCount : Int
  aspectsParsed : Option (List String)
deriving DecidableEq, Repr

/-- Model of the loaded category DataFrame: its rows in order, plus whether
the `aspects_parsed` column exists at all (the code guards on
`'aspects_parsed' not in df.columns`). -/
structure CatFrame where
  hasParsedCol : Bool
  rows : List CategoryRow
deriving DecidableEq, Repr

/-- Embedding of the counting loop shared by `analyze_category_aspects` and
`create_aspect_category_matrix`: iterate the `aspects_parsed` column in row
order and `Counter.update` with every cell that is a list. -/
def buildCounter (rows : List CategoryRow) : List (String × Nat) :=
  rows.foldl
    (fun c r =>
      match r.aspectsParsed with
      | some l => counterUpdate c l
      | none => c)
    []

/-- Embedding of `Counter.most_common()`: all entries, stably sorted by
descending count. -/
def mostCommon (c : List (String × Nat)) : List (String × Nat) :=
  sortDescBy (fun p : String × Nat => p.2) c

/-- Embedding of `analyze_category_aspects` (`utils.py`): `None` input or a
missing `aspects_parsed` column yields `None`; otherwise the frequency table
`{'aspect': ..., 'count': ...}`, modelled as the `most_common` pair list. -/
def analyze_category_aspects : Option CatFrame → Option (List (String × Nat))
  | none => none
  | some f =>
    if f.hasParsedCol then some (mostCommon (buildCounter f.rows)) else none

/-- Cell value of the matrix DataFrame: the `aspect` column holds strings, the
category columns hold the integers 0 and 1. -/
inductive MCell where
  | strV (s : String)
  | natV (n : Nat)
deriving DecidableEq, Repr

/-- Model of one matrix row, a Python dict as insertion-ordered association
list. -/
abbrev MRow := List (String × MCell)

/-- Model of Python dict assignment `row[k] = v`: update in place when the key
exists, append otherwise. -/
def dictSet : MRow → String → MCell → MRow
  | [], k, v => [(k, v)]
  | (k0, v0) :: rest, k, v =>
    if k0 = k then (k0, v) :: rest else (k0, v0) :: dictSet rest k v

/-- Model of Python dict lookup `row[k]`. -/
def dictGet (row : MRow) (k : String) : Option MCell :=
  (row.find? (fun p => p.1 == k)).map (fun p => p.2)

/-- Columns of `pd.DataFrame(list_of_dicts)`: the union of the dict keys in
order of first appearance. -/
def frameColumns (data : List MRow) : List String :=
  data.foldl
    (fun acc row =>
      row.foldl (fun a kv => if a.contains kv.1 then a else a ++ [kv.1]) acc)
    []

/-- Embedding of `df.loc[df['name'] == category, 'aspects_parsed'].values`
followed by the `[0]` access: the `aspects_parsed` cell of the first row whose
`name` equals `nm`, or `none` when no row matches (`.size == 0`). -/
def firstParsedFor (rows : List CategoryRow) (nm : String) :
    Option (Option (List String)) :=
  ((rows.filter (fun r => r.name == nm)).head?).map
    (fun r => r.aspectsParsed)

/-- Embedding of one matrix cell:
`1 if aspect in aspects_in_category[0] else 0` when the first matching cell is
a list, `0` when there is no matching row or the cell is not a list. -/
def cellFor (rows : List CategoryRow) (nm : String) (a : String) : Nat :=
  match firstParsedFor rows nm with
  | some (some l) => if a ∈ l then 1 else 0
  | _ => 0

/-- Row set of the matrix: `aspect_counts.most_common(max_aspects)` keys. -/
def topAspectsOf (f : CatFrame) (maxAspects : Nat) : List String :=
  ((mostCommon (buildCounter f.rows)).take maxAspects).map (fun p => p.1)

/-- Column set of the matrix: `df.nlargest(max_categories, 'aspectsCount')`,
the stable descending prefix by `aspectsCount`. -/
def topCatsOf (f : CatFrame) (maxCategories : Nat) : List CategoryRow :=
  (sortDescBy (fun r : CategoryRow => r.aspectsCount) f.rows).take maxCategories

/-- Embedding of `create_aspect_category_matrix` (`utils.py`): `None` input or
a missing `aspects_parsed` column yields `None`; otherwise one dict per top
aspect, starting at `{'aspect': aspect}` and assigning the 0/1 presence cell
for each top category name in order, collected into `pd.DataFrame(matrix_data)`
(modelled as the list of row dicts; source defaults are
`max_aspects=1000, max_categories=500`). -/
def create_aspect_category_matrix (df : Option CatFrame)
    (maxAspects maxCategories : Nat) : Option (List MRow) :=
  match df with
  | none => none
  | some f =>
    if f.hasParsedCol then
      some ((topAspectsOf f maxAspects).map
        (fun a =>
          (topCatsOf f maxCategories).foldl
            (fun row cat =>
              dictSet row cat.name (MCell.natV (cellFor f.rows cat.name a)))
            [("aspect", MCell.strV a)]))
    else none

/-! ### Summary statistics of `pages/3_Category_Analysis.py` -/

/-- Embedding of `total_categories = len(category_data)`. -/
def total_categories (rows : List CategoryRow) : Nat := rows.length

/-- Embedding of
`categories_with_aspects = len(category_data[category_data['aspectsCount'] > 0])`. -/
def categories_with_aspects (rows : List CategoryRow) : Nat :=
  (rows.filter (fun r => 0 < r.aspectsCount)).length

/-- Embedding of
`categories_without_aspects = total_categories - categories_with_aspects`. -/
def categories_without_aspects (rows : List CategoryRow) : Nat :=
  total_categories rows - categories_with_aspects rows

/-- Embedding of `avg_aspects = category_data['aspectsCount'].mean()`: the
arithmetic mean as an exact rational, with `none` standing for the NaN that
pandas returns on an empty column. -/
def avg_aspects (rows : List CategoryRow) : Option ℚ :=
  if rows.isEmpty then none
  else some (((rows.map (fun r => r.aspectsCount)).sum : ℚ) / (rows.length : ℚ))

/-- Example rows of spec §8: `Electronics` with two parsed aspects,
`Food` with one. -/
def exampleRows : List CategoryRow :=
  [⟨"Electronics", 2, some ["Product/Price", "Service/Staff"]⟩,
   ⟨"Food", 1, some ["Product/Price"]⟩]

/-- Concrete presence matrix of the two-row example with caps 2 and 2. -/
def exampleMatrix : List MRow :=
  [[("aspect", MCell.strV "Product/Price"),
    ("Electronics", MCell.natV 1), ("Food", MCell.natV 1)],
   [("aspect", MCell.strV "Service/Staff"),
    ("Electronics", MCell.natV 1), ("Food", MCell.natV 0)]]

example :
    analyze_category_aspects (some ⟨true, exampleRows⟩) =
      some [("Product/Price", 2), ("Service/Staff", 1)] := by decide
example :
    create_aspect_category_matrix (some ⟨true, exampleRows⟩) 2 2 =
      some [[("aspect", MCell.strV "Product/Price"),
             ("Electronics", MCell.natV 1), ("Food", MCell.natV 1)],
            [("aspect", MCell.strV "Service/Staff"),
             ("Electronics", MCell.natV 1), ("Food", MCell.natV 0)]] := by decide
example :
    create_aspect_category_matrix (some ⟨true, [⟨"A", 0, some []⟩]⟩) 1000 500 =
      some [] := by decide
example : frameColumns [] = [] := by decide
example : avg_aspects exampleRows = some (3 / 2) := by
  norm_num [avg_aspects, exampleRows]

/-! ### Lemmas about the stable descending sort -/

theorem insertDescBy_perm {α β : Type} [LinearOrder β] (key : α → β) (x : α) :
    ∀ l : List α, List.Perm (insertDescBy key x l) (x :: l)
  | [] => by simp [insertDescBy]
  | y :: ys => by
    by_cases h : key x < key y
    · simp only [insertDescBy, if_pos h]
      exact ((insertDescBy_perm key x ys).cons y).trans (List.Perm.swap x y ys)
    · simp [insertDescBy, if_neg h]

theorem sortDescBy_perm {α β : Type} [LinearOrder β] (key : α → β) :
    ∀ l : List α, List.Perm (sortDescBy key l) l
  | [] => by simp [sortDescBy]
  | x :: xs =>
    (insertDescBy_perm key x (sortDescBy key xs)).trans
      ((sortDescBy_perm key xs).cons x)

theorem sortDescBy_length {α β : Type} [LinearOrder β] (key : α → β)
    (l : List α) : (sortDescBy key l).length = l.length :=
  (sortDescBy_perm key l).length_eq

theorem insertDescBy_pairwise {α β : Type} [LinearOrder β] (key : α → β)
    (x : α) : ∀ l : List α, l.Pairwise (fun a b => key b ≤ key a) →
      (insertDescBy key x l).Pairwise (fun a b => key b ≤ key a)
  | [], _ => by simp [insertDescBy]
  | y :: ys, h => by
    rw [List.pairwise_cons] at h
    by_cases hxy : key x < key y
    · simp only [insertDescBy, if_pos hxy]
      rw [List.pairwise_cons]
      refine ⟨fun z hz => ?_, insertDescBy_pairwise key x ys h.2⟩
      rcases List.mem_cons.mp ((insertDescBy_perm key x ys).mem_iff.mp hz) with rfl | hz
      · exact le_of_lt hxy
      · exact h.1 z hz
    · simp only [insertDescBy, if_neg hxy]
      rw [List.pairwise_cons]
      refine ⟨fun z hz => ?_, List.pairwise_cons.mpr h⟩
      rcases List.mem_cons.mp hz with rfl | hz
      · exact not_lt.mp hxy
      · exact le_trans (h.1 z hz) (not_lt.mp hxy)

/-- Output of the stable descending sort is pairwise descending in the key. -/
theorem sortDescBy_pairwise {α β : Type} [LinearOrder β] (key : α → β) :
    ∀ l : List α, (sortDescBy key l).Pairwise (fun a b => key b ≤ key a)
  | [] => by simp [sortDescBy]
  | x :: xs => insertDescBy_pairwise key x _ (sortDescBy_pairwise key xs)

theorem insertDescBy_filter {α β : Type} [LinearOrder β] (key : α → β)
    (x : α) (v : β) : ∀ l : List α,
      (insertDescBy key x l).filter (fun a => decide (key a = v)) =
        if key x = v then x :: l.filter (fun a => decide (key a = v))
        else l.filter (fun a => decide (key a = v))
  | [] => by
    by_cases hx : key x = v <;> simp [insertDescBy, hx]
  | y :: ys => by
    by_cases hxy : key x < key y
    · simp only [insertDescBy, if_pos hxy]
      by_cases hy : key y = v
      · have hx : ¬ key x = v := fun hx => absurd hxy (by rw [hx, hy]; exact lt_irrefl v)
        rw [List.filter_cons_of_pos (by simp [hy]), insertDescBy_filter key x v ys,
          if_neg hx, if_neg hx, List.filter_cons_of_pos (by simp [hy])]
      · rw [List.filter_cons_of_neg (by simp [hy]), insertDescBy_filter key x v ys,
          List.filter_cons_of_neg (by simp [hy])]
    · simp only [insertDescBy, if_neg hxy]
      by_cases hx : key x = v
      · rw [if_pos hx, List.filter_cons_of_pos (by simp [hx])]
      · rw [if_neg hx, List.filter_cons_of_neg (by simp [hx])]

/-- Stability of the descending sort: the subsequence of elements with any
fixed key value is exactly the one of the input, i.e. ties keep their original
relative order. -/
theorem sortDescBy_filter {α β : Type} [LinearOrder β] (key : α → β) (v : β) :
    ∀ l : List α, (sortDescBy key l).filter (fun a => decide (key a = v)) =
      l.filter (fun a => decide (key a = v))
  | [] => by simp [sortDescBy]
  | x :: xs => by
    rw [sortDescBy, insertDescBy_filter key x v, sortDescBy_filter key v xs]
    by_cases hx : key x = v
    · rw [if_pos hx, List.filter_cons_of_pos (by simp [hx])]
    · rw [if_neg hx, List.filter_cons_of_neg (by simp [hx])]

/-! ### Lemmas about the counter -/

theorem counterAdd_sum (x : String) : ∀ c : List (String × Nat),
    ((counterAdd c x).map Prod.snd).sum = (c.map Prod.snd).sum + 1
  | [] => by simp [counterAdd]
  | (k, v) :: rest => by
    by_cases h : k = x
    · simp [counterAdd, h]; ring
    · simp only [counterAdd, if_neg h, List.map_cons, List.sum_cons,
        counterAdd_sum x rest]
      ring

theorem counterUpdate_sum (xs : List String) : ∀ c : List (String × Nat),
    ((counterUpdate c xs).map Prod.snd).sum = (c.map Prod.snd).sum + xs.length := by
  induction xs with
  | nil => intro c; simp [counterUpdate]
  | cons x xs ih =>
    intro c
    have : counterUpdate c (x :: xs) = counterUpdate (counterAdd c x) xs := rfl
    rw [this, ih, counterAdd_sum, List.length_cons]
    ring

/-- Total count held by the counter after the counting loop: one per aspect
occurrence, over exactly the rows whose parsed cell is a list. -/
theorem buildCounter_sum (rows : List CategoryRow) :
    ((buildCounter rows).map Prod.snd).sum =
      (rows.map (fun r => (r.aspectsParsed.getD []).length)).sum := by
  suffices h : ∀ (c : List (String × Nat)),
      ((rows.foldl
        (fun c r =>
          match r.aspectsParsed with
          | some l => counterUpdate c l
          | none => c) c).map Prod.snd).sum =
        (c.map Prod.snd).sum + (rows.map (fun r => (r.aspectsParsed.getD []).length)).sum by
    have := h []
    simpa [buildCounter] using this
  induction rows with
  | nil => intro c; simp
  | cons r rows ih =>
    intro c
    cases hr : r.aspectsParsed with
    | none => simp [List.foldl_cons, hr, ih]
    | some l => simp [List.foldl_cons, hr, ih, counterUpdate_sum]; ring

theorem counterAdd_keys (x : String) : ∀ c : List (String × Nat),
    (counterAdd c x).map Prod.fst =
      if x ∈ c.map Prod.fst then c.map Prod.fst else c.map Prod.fst ++ [x]
  | [] => by simp [counterAdd]
  | (k, v) :: rest => by
    by_cases h : k = x
    · simp [counterAdd, h]
    · have hne : ¬ x = k := fun hh => h hh.symm
      simp only [counterAdd, if_neg h, List.map_cons, List.mem_cons]
      rw [counterAdd_keys x rest]
      by_cases hm : x ∈ rest.map Prod.fst
      · simp [hm, hne]
      · simp [hm, hne]

theorem counterAdd_keys_nodup (x : String) (c : List (String × Nat))
    (h : (c.map Prod.fst).Nodup) : ((counterAdd c x).map Prod.fst).Nodup := by
  rw [counterAdd_keys]
  by_cases hm : x ∈ c.map Prod.fst
  · simpa [hm] using h
  · simpa [hm] using List.Nodup.append h (List.nodup_singleton x) (by simpa using hm)

theorem mem_counterAdd_keys (a x : String) (c : List (String × Nat)) :
    a ∈ (counterAdd c x).map Prod.fst ↔ a ∈ c.map Prod.fst ∨ a = x := by
  rw [counterAdd_keys]
  by_cases hm : x ∈ c.map Prod.fst
  · rw [if_pos hm]
    constructor
    · exact fun h => Or.inl h
    · rintro (h | rfl)
      · exact h
      · exact hm
  · rw [if_neg hm]
    simp

theorem counterUpdate_keys_nodup (xs : List String) :
    ∀ c : List (String × Nat), (c.map Prod.fst).Nodup →
      ((counterUpdate c xs).map Prod.fst).Nodup := by
  induction xs with
  | nil => intro c h; simpa [counterUpdate] using h
  | cons x xs ih =>
    intro c h
    exact ih (counterAdd c x) (counterAdd_keys_nodup x c h)

theorem mem_counterUpdate_keys (a : String) (xs : List String) :
    ∀ c : List (String × Nat),
      (a ∈ (counterUpdate c xs).map Prod.fst ↔ a ∈ c.map Prod.fst ∨ a ∈ xs) := by
  induction xs with
  | nil => intro c; simp [counterUpdate]
  | cons x xs ih =>
    intro c
    have : counterUpdate c (x :: xs) = counterUpdate (counterAdd c x) xs := rfl
    rw [this, ih (counterAdd c x), mem_counterAdd_keys]
    constructor
    · rintro ((h | rfl) | h)
      · exact Or.inl h
      · exact Or.inr (List.mem_cons_self _ _)
      · exact Or.inr (List.mem_cons_of_mem _ h)
    · rintro (h | h)
      · exact Or.inl (Or.inl h)
      · rcases List.mem_cons.mp h with rfl | h
        · exact Or.inl (Or.inr rfl)
        · exact Or.inr h

/-- Keys of the counter built by the counting loop are distinct. -/
theorem buildCounter_keys_nodup (rows : List CategoryRow) :
    ((buildCounter rows).map Prod.fst).Nodup := by
  suffices h : ∀ (c : List (String × Nat)), (c.map Prod.fst).Nodup →
      ((rows.foldl
        (fun c r =>
          match r.aspectsParsed with
          | some l => counterUpdate c l
          | none => c) c).map Prod.fst).Nodup from h [] (by simp)
  induction rows with
  | nil => intro c h; simpa using h
  | cons r rows ih =>
    intro c h
    cases hr : r.aspectsParsed with
    | none => simpa [List.foldl_cons, hr] using ih c h
    | some l =>
      simpa [List.foldl_cons, hr] using ih (counterUpdate c l) (counterUpdate_keys_nodup l c h)

/-! ### Lemmas about the row dicts and frame columns -/

theorem dictGet_dictSet_self (k : String) (v : MCell) : ∀ row : MRow,
    dictGet (dictSet row k v) k = some v
  | [] => by simp [dictSet, dictGet, List.find?]
  | (k0, v0) :: rest => by
    by_cases h : k0 = k
    · simp [dictSet, h, dictGet, List.find?]
    · have : (k0 == k) = false := by simp [h]
      simp only [dictSet, if_neg h, dictGet, List.find?, this]
      exact dictGet_dictSet_self k v rest

theorem dictGet_dictSet_ne (k k2 : String) (hne : k ≠ k2) (v : MCell) :
    ∀ row : MRow, dictGet (dictSet row k2 v) k = dictGet row k
  | [] => by
    have hb : (k2 == k) = false := beq_false_of_ne (Ne.symm hne)
    simp [dictSet, dictGet, List.find?, hb]
  | (k0, v0) :: rest => by
    by_cases h : k0 = k2
    · subst h
      have hb : (k0 == k) = false := beq_false_of_ne (Ne.symm hne)
      simp [dictSet, dictGet, List.find?, hb]
    · simp only [dictSet, if_neg h, dictGet, List.find?]
      by_cases h0 : k0 = k
      · simp [h0]
      · have hb : (k0 == k) = false := beq_false_of_ne h0
        simp only [hb]
        exact dictGet_dictSet_ne k k2 hne v rest

/-- Folding dict assignments whose keys all differ from `k` leaves the lookup
at `k` unchanged. -/
theorem foldl_dictSet_get_of_not_mem (g : CategoryRow → MCell) (k : String) :
    ∀ (cats : List CategoryRow) (init : MRow), k ∉ cats.map CategoryRow.name →
      dictGet (cats.foldl (fun row cat => dictSet row cat.name (g cat)) init) k =
        dictGet init k
  | [], init, _ => rfl
  | c :: cats, init, h => by
    have h2 : k ≠ c.name ∧ k ∉ cats.map CategoryRow.name := by
      simpa [List.mem_cons, not_or] using h
    rw [List.foldl_cons]
    rw [foldl_dictSet_get_of_not_mem g k cats _ h2.2]
    exact dictGet_dictSet_ne k c.name h2.1 (g c) init

/-- Folding dict assignments over categories with distinct names: the lookup
at a member category's name returns that category's assigned value. -/
theorem foldl_dictSet_get (g : CategoryRow → MCell) :
    ∀ (cats : List CategoryRow) (init : MRow) (c : CategoryRow),
      (cats.map CategoryRow.name).Nodup → c ∈ cats →
      dictGet (cats.foldl (fun row cat => dictSet row cat.name (g cat)) init) c.name =
        some (g c)
  | [], _, c, _, hc => absurd hc (List.not_mem_nil c)
  | c0 :: cats, init, c, hnd, hc => by
    rw [List.map_cons, List.nodup_cons] at hnd
    rcases List.mem_cons.mp hc with rfl | hc
    · rw [List.foldl_cons,
        foldl_dictSet_get_of_not_mem g c.name cats _ hnd.1,
        dictGet_dictSet_self]
    · rw [List.foldl_cons]
      exact foldl_dictSet_get g cats _ c hnd.2 hc

theorem dictSet_of_not_mem_keys (k : String) (v : MCell) : ∀ row : MRow,
    k ∉ row.map Prod.fst → dictSet row k v = row ++ [(k, v)]
  | [], _ => rfl
  | (k0, v0) :: rest, h => by
    have h2 : k ≠ k0 ∧ k ∉ rest.map Prod.fst := by
      simpa [List.mem_cons, not_or] using h
    rw [dictSet, if_neg (Ne.symm h2.1), List.cons_append,
      dictSet_of_not_mem_keys k v rest h2.2]

/-- Folding dict assignments over categories with distinct, fresh names
appends one entry per category, in order. -/
theorem foldl_dictSet_eq_append (g : CategoryRow → MCell) :
    ∀ (cats : List CategoryRow) (init : MRow),
      (cats.map CategoryRow.name).Nodup →
      (∀ c ∈ cats, c.name ∉ init.map Prod.fst) →
      cats.foldl (fun row cat => dictSet row cat.name (g cat)) init =
        init ++ cats.map (fun c => (c.name, g c))
  | [], init, _, _ => by simp
  | c0 :: cats, init, hnd, hfresh => by
    rw [List.map_cons, List.nodup_cons] at hnd
    rw [List.foldl_cons,
      dictSet_of_not_mem_keys c0.name (g c0) init
        (hfresh c0 (List.mem_cons_self _ _)),
      foldl_dictSet_eq_append g cats _ hnd.2, List.map_cons]
    · simp
    · intro c hc
      rw [List.map_append]
      intro hmem
      rcases List.mem_append.mp hmem with hmem | hmem
      · exact hfresh c (List.mem_cons_of_mem _ hc) hmem
      · simp only [List.map_cons, List.map_nil, List.mem_singleton] at hmem
        exact hnd.1 (hmem ▸ List.mem_map_of_mem CategoryRow.name hc)

/-- Inner fold of `frameColumns` adds nothing when every key is present. -/
theorem frameColumns_inner_of_subset (row : MRow) :
    ∀ acc : List String, (∀ kv ∈ row, kv.1 ∈ acc) →
      row.foldl (fun a kv => if a.contains kv.1 then a else a ++ [kv.1]) acc = acc := by
  induction row with
  | nil => intro acc _; rfl
  | cons kv rest ih =>
    intro acc h
    rw [List.foldl_cons, if_pos]
    · exact ih acc (fun kv2 h2 => h kv2 (List.mem_cons_of_mem _ h2))
    · exact List.elem_eq_true_of_mem (h kv (List.mem_cons_self _ _))

/-- Inner fold of `frameColumns` appends distinct fresh keys in order. -/
theorem frameColumns_inner_fresh :
    ∀ (row : MRow) (acc : List String), (row.map Prod.fst).Nodup →
      (∀ kv ∈ row, kv.1 ∉ acc) →
      row.foldl (fun a kv => if a.contains kv.1 then a else a ++ [kv.1]) acc =
        acc ++ row.map Prod.fst
  | [], acc, _, _ => by simp
  | kv :: rest, acc, hnd, hfresh => by
    rw [List.map_cons, List.nodup_cons] at hnd
    rw [List.foldl_cons, if_neg, frameColumns_inner_fresh rest _ hnd.2, List.map_cons]
    · simp
    · intro kv2 h2
      rw [List.mem_append]
      push_neg
      refine ⟨hfresh kv2 (List.mem_cons_of_mem _ h2), ?_⟩
      simp only [List.mem_singleton]
      exact fun hh => hnd.1 (hh ▸ List.mem_map_of_mem Prod.fst h2)
    · intro hc
      exact hfresh kv (List.mem_cons_self _ _) (List.mem_of_elem_eq_true hc)

/-- Outer fold of `frameColumns` keeps an accumulator that already holds all
keys of every remaining row. -/
theorem frameColumns_outer_stay (ks : List String) :
    ∀ rest : List MRow, (∀ row ∈ rest, row.map Prod.fst = ks) →
      rest.foldl
        (fun acc row =>
          row.foldl (fun a kv => if a.contains kv.1 then a else a ++ [kv.1]) acc)
        ks = ks
  | [], _ => rfl
  | row :: rest, hall => by
    rw [List.foldl_cons, frameColumns_inner_of_subset row ks
      (fun kv hkv => (hall row (List.mem_cons_self _ _)) ▸
        List.mem_map_of_mem Prod.fst hkv)]
    exact frameColumns_outer_stay ks rest
      (fun r hr => hall r (List.mem_cons_of_mem _ hr))

/-- Columns of a DataFrame whose row dicts all share one distinct key list:
exactly that key list. -/
theorem frameColumns_uniform (ks : List String) (hnd : ks.Nodup) :
    ∀ data : List MRow, data ≠ [] → (∀ row ∈ data, row.map Prod.fst = ks) →
      frameColumns data = ks
  | [], h, _ => absurd rfl h
  | row :: rest, _, hall => by
    have hrow : row.map Prod.fst = ks := hall row (List.mem_cons_self _ _)
    have hfirst :
        row.foldl (fun a kv => if a.contains kv.1 then a else a ++ [kv.1]) [] = ks := by
      rw [frameColumns_inner_fresh row [] (by rw [hrow]; exact hnd) (by simp),
        hrow, List.nil_append]
    rw [frameColumns, List.foldl_cons, hfirst]
    exact frameColumns_outer_stay ks rest
      (fun r hr => hall r (List.mem_cons_of_mem _ hr))

/-! ### Unique category names -/

/-- With distinct category names, filtering the rows on a member category's
name yields exactly that row. -/
theorem filter_name_unique :
    ∀ (rows : List CategoryRow) (c : CategoryRow),
      ((rows.map CategoryRow.name).Nodup) → c ∈ rows →
      rows.filter (fun r => r.name == c.name) = [c]
  | [], c, _, hc => absurd hc (List.not_mem_nil c)
  | r0 :: rows, c, hnd, hc => by
    rw [List.map_cons, List.nodup_cons] at hnd
    rcases List.mem_cons.mp hc with rfl | hc
    · rw [List.filter_cons_of_pos (by simp)]
      have : rows.filter (fun r => r.name == c.name) = [] := by
        rw [List.filter_eq_nil_iff]
        intro r hr
        simp only [beq_iff_eq]
        intro hname
        exact hnd.1 (hname ▸ List.mem_map_of_mem CategoryRow.name hr)
      rw [this]
    · have hne : r0.name ≠ c.name := fun hh =>
        hnd.1 (hh ▸ List.mem_map_of_mem CategoryRow.name hc)
      rw [List.filter_cons_of_neg (by simp [hne])]
      exact filter_name_unique rows c hnd.2 hc

/-- With distinct names, the presence cell for a member category is computed
from that category's own parsed list. -/
theorem cellFor_unique (rows : List CategoryRow) (c : CategoryRow)
    (hnd : (rows.map CategoryRow.name).Nodup) (hc : c ∈ rows)
    (l : List String) (hl : c.aspectsParsed = some l) (a : String) :
    cellFor rows c.name a = if a ∈ l then 1 else 0 := by
  rw [cellFor, firstParsedFor, filter_name_unique rows c hnd hc]
  simp [hl]

/-! ### Congruence of the counting loop in the parsed column -/

/-- Result of the counting loop depends only on the `aspects_parsed` column. -/
theorem buildCounter_congr :
    ∀ rows1 rows2 : List CategoryRow,
      rows1.map CategoryRow.aspectsParsed = rows2.map CategoryRow.aspectsParsed →
      buildCounter rows1 = buildCounter rows2 := by
  suffices h : ∀ (rows1 rows2 : List CategoryRow) (c : List (String × Nat)),
      rows1.map CategoryRow.aspectsParsed = rows2.map CategoryRow.aspectsParsed →
      rows1.foldl
        (fun c r =>
          match r.aspectsParsed with
          | some l => counterUpdate c l
          | none => c) c =
      rows2.foldl
        (fun c r =>
          match r.aspectsParsed with
          | some l => counterUpdate c l
          | none => c) c by
    intro rows1 rows2 hmap
    exact h rows1 rows2 [] hmap
  intro rows1
  induction rows1 with
  | nil =>
    intro rows2 c hmap
    have : rows2 = [] := by
      cases rows2 with
      | nil => rfl
      | cons r rs => simp at hmap
    rw [this]
  | cons r1 rs1 ih =>
    intro rows2 c hmap
    cases rows2 with
    | nil => simp at hmap
    | cons r2 rs2 =>
      simp only [List.map_cons, List.cons.injEq] at hmap
      rw [List.foldl_cons, List.foldl_cons, hmap.1]
      exact ih rs2 _ hmap.2

/-! ### Lemmas about the split and strip primitives -/

/-- Characters of any part produced by the comma split are characters of the
input. -/
theorem mem_splitCommaChars :
    ∀ (cs : List Char) (p : List Char), p ∈ splitCommaChars cs → ∀ c ∈ p, c ∈ cs
  | [], p, hp, c, hc => by
    simp only [splitCommaChars, List.mem_singleton] at hp
    subst hp
    exact absurd hc (List.not_mem_nil c)
  | c0 :: cs, p, hp, c, hc => by
    by_cases h0 : c0 = ','
    · simp only [splitCommaChars, if_pos h0, List.mem_cons] at hp
      rcases hp with rfl | hp
      · exact absurd hc (List.not_mem_nil c)
      · exact List.mem_cons_of_mem _ (mem_splitCommaChars cs p hp c hc)
    · simp only [splitCommaChars, if_neg h0] at hp
      rcases hrec : splitCommaChars cs with _ | ⟨p0, ps⟩
      · rw [hrec, List.mem_singleton] at hp
        subst hp
        rw [List.mem_singleton] at hc
        exact hc ▸ List.mem_cons_self _ _
      · rw [hrec, List.mem_cons] at hp
        rcases hp with rfl | hp
        · rcases List.mem_cons.mp hc with rfl | hc
          · exact List.mem_cons_self _ _
          · exact List.mem_cons_of_mem _
              (mem_splitCommaChars cs p0 (hrec ▸ List.mem_cons_self _ _) c hc)
        · exact List.mem_cons_of_mem _
            (mem_splitCommaChars cs p (hrec ▸ List.mem_cons_of_mem _ hp) c hc)

/-- Stripping a string of whitespace characters yields the empty character
list. -/
theorem pyStripChars_eq_nil (cs : List Char) (h : ∀ c ∈ cs, c.isWhitespace) :
    pyStripChars cs = [] := by
  rw [pyStripChars, List.dropWhile_eq_nil_iff.mpr h]
  simp

/-- Keys of the counter are exactly the aspects occurring in some row whose
parsed cell is a list. -/
theorem mem_buildCounter_keys (a : String) (rows : List CategoryRow) :
    a ∈ (buildCounter rows).map Prod.fst ↔
      ∃ r ∈ rows, ∃ l, r.aspectsParsed = some l ∧ a ∈ l := by
  suffices h : ∀ (c : List (String × Nat)),
      (a ∈ ((rows.foldl
        (fun c r =>
          match r.aspectsParsed with
          | some l => counterUpdate c l
          | none => c) c).map Prod.fst) ↔
        a ∈ c.map Prod.fst ∨ ∃ r ∈ rows, ∃ l, r.aspectsParsed = some l ∧ a ∈ l) by
    have := h []
    simpa [buildCounter] using this
  induction rows with
  | nil => intro c; simp
  | cons r rows ih =>
    intro c
    cases hr : r.aspectsParsed with
    | none =>
      rw [List.foldl_cons]
      simp only [hr]
      rw [ih c]
      constructor
      · rintro (h | ⟨r2, hr2, l2, hl2, ha2⟩)
        · exact Or.inl h
        · exact Or.inr ⟨r2, List.mem_cons_of_mem r hr2, l2, hl2, ha2⟩
      · rintro (h | ⟨r2, hr2, l2, hl2, ha2⟩)
        · exact Or.inl h
        · rcases List.mem_cons.mp hr2 with rfl | hr2
          · rw [hr] at hl2; exact absurd hl2 (by simp)
          · exact Or.inr ⟨r2, hr2, l2, hl2, ha2⟩
    | some l =>
      rw [List.foldl_cons]
      simp only [hr]
      rw [ih (counterUpdate c l), mem_counterUpdate_keys]
      constructor
      · rintro ((h | h) | ⟨r2, hr2, l2, hl2, ha2⟩)
        · exact Or.inl h
        · exact Or.inr ⟨r, List.mem_cons_self r rows, l, hr, h⟩
        · exact Or.inr ⟨r2, List.mem_cons_of_mem r hr2, l2, hl2, ha2⟩
      · rintro (h | ⟨r2, hr2, l2, hl2, ha2⟩)
        · exact Or.inl (Or.inl h)
        · rcases List.mem_cons.mp hr2 with rfl | hr2
          · rw [hr] at hl2
            exact Or.inl (Or.inr (by injection hl2 with h2; exact h2 ▸ ha2))
          · exact Or.inr ⟨r2, hr2, l2, hl2, ha2⟩

/-! ## Claim theorems -/

/-- C1, corrected. The claim says a bracket-shaped aspect string that fails to
decode falls back to comma-splitting. In the source, `parse_aspects` catches
the `ast.literal_eval` exception and returns `[]` — it never comma-splits a
bracket-shaped string (and `load_category_data` has no per-cell fallback at
all, aborting the whole load instead). The amended property: on decode
failure of a bracket-shaped string the parser returns the empty sequence, and
it never raises (totality is the return type of the embedding, every branch of
`parse_aspects` producing a plain list). -/
theorem c1_bracket_decode_fallback (s : String)
    (hb : startsBracket s = true) (he : endsBracket s = true)
    (hf : litEvalList s = none) : parse_aspects s = [] := by
  have hcond : (startsBracket s && endsBracket s) = true := by rw [hb, he]; rfl
  rw [parse_aspects, if_pos hcond, hf]

/-- Witness for C1 at the concrete bracket-shaped input `"[a]"`, on which
`ast.literal_eval` raises (`a` is not a literal). -/
theorem c1_bracket_decode_fallback_wit :
    litEvalList "[a]" = none ∧ parse_aspects "[a]" = [] :=
  ⟨by decide, c1_bracket_decode_fallback "[a]" (by decide) (by decide) (by decide)⟩

/-- Counterexample to C1 as stated: `"[a]"` is bracket-shaped and fails to
decode, its comma-split is the non-empty `["[a]"]`, yet `parse_aspects`
returns `[]`, not the comma-split. -/
theorem c1_bracket_decode_fallback_cex :
    startsBracket "[a]" = true ∧ endsBracket "[a]" = true ∧
    litEvalList "[a]" = none ∧ commaSplitTokens "[a]" = ["[a]"] ∧
    parse_aspects "[a]" = [] ∧ parse_aspects "[a]" ≠ commaSplitTokens "[a]" := by
  decide

/-- C7, corrected. For strings that do not enter the bracket branch,
`parse_aspects` comma-splits, strips every token and keeps only non-empty
ones, and a purely-whitespace string yields `[]` — but the claim also cites
`process_csv` (`utils.py`), whose splitting keeps empty tokens after
stripping, so the discard guarantee holds only for `parse_aspects`. -/
theorem c7_comma_split (s : String)
    (h : (startsBracket s && endsBracket s) = false) :
    parse_aspects s = ((pySplitComma s).map pyStrip).filter (fun t => t ≠ "") ∧
    "" ∉ parse_aspects s ∧
    ((∀ c ∈ s.data, c.isWhitespace) → parse_aspects s = []) := by
  have hcond : ¬((startsBracket s && endsBracket s) = true) := by
    rw [h]; exact Bool.false_ne_true
  have hmain : parse_aspects s =
      ((pySplitComma s).map pyStrip).filter (fun t => t ≠ "") := by
    rw [parse_aspects, if_neg hcond]; rfl
  refine ⟨hmain, ?_, ?_⟩
  · rw [hmain]
    intro hmem
    have := (List.mem_filter.mp hmem).2
    simp at this
  · intro hws
    rw [hmain, List.filter_eq_nil_iff]
    intro t ht
    rcases List.mem_map.mp ht with ⟨p, hp, rfl⟩
    rcases List.mem_map.mp hp with ⟨q, hq, rfl⟩
    have hqw : ∀ c ∈ q, c.isWhitespace :=
      fun c hc => hws c (mem_splitCommaChars s.data q hq c hc)
    have : pyStrip (String.mk q) = "" := by
      rw [pyStrip]
      show String.mk (pyStripChars (String.mk q).data) = ""
      have hdata : (String.mk q).data = q := rfl
      rw [hdata, pyStripChars_eq_nil q hqw]
    simp [this]

/-- Witness for C7 at concrete inputs: a plain comma-separated string and a
purely-whitespace string. -/
theorem c7_comma_split_wit :
    parse_aspects "a, b, c" = ["a", "b", "c"] ∧ parse_aspects " " = [] := by
  constructor
  · have h := (c7_comma_split "a, b, c" (by decide)).1
    rw [h]; decide
  · exact (c7_comma_split " " (by decide)).2.2 (by decide)

/-- Counterexample to C7 as stated: the aspect splitting of `process_csv`
keeps the empty token of `"a, ,b"` after stripping and turns the
purely-whitespace string `" "` into `[""]`, not `[]`. -/
theorem c7_comma_split_cex :
    process_csv_aspects (PyVal.str "a, ,b") = ["a", "", "b"] ∧
    "" ∈ process_csv_aspects (PyVal.str "a, ,b") ∧
    process_csv_aspects (PyVal.str " ") = [""] ∧
    ([""] : List String) ≠ [] := by
  decide

/-- C2, confirmed. For a frame whose parsed aspect cells are all lists, the
counts in the frequency table sum to the total number of aspect occurrences
across all rows' parsed lists, duplicates included. -/
theorem c2_frequency_sum (f : CatFrame) (hp : f.hasParsedCol = true)
    (_hl : ∀ r ∈ f.rows, r.aspectsParsed.isSome) :
    ∃ t, analyze_category_aspects (some f) = some t ∧
      (t.map Prod.snd).sum =
        (f.rows.map (fun r => (r.aspectsParsed.getD []).length)).sum := by
  refine ⟨mostCommon (buildCounter f.rows), ?_, ?_⟩
  · simp [analyze_category_aspects, hp]
  · have hperm : List.Perm (mostCommon (buildCounter f.rows)) (buildCounter f.rows) :=
      sortDescBy_perm _ _
    rw [(hperm.map Prod.snd).sum_eq, buildCounter_sum]

/-- Witness for C2 at the two-row example of spec §8: table sum 3 equals the
three occurrences (two in Electronics, one in Food). -/
theorem c2_frequency_sum_wit :
    ∃ t, analyze_category_aspects (some ⟨true, exampleRows⟩) = some t ∧
      (t.map Prod.snd).sum =
        (exampleRows.map (fun r => (r.aspectsParsed.getD []).length)).sum :=
  c2_frequency_sum ⟨true, exampleRows⟩ rfl (by decide)

/-- C5, confirmed. Both aggregation functions are total in the embedding (they
return a plain `Option`), and on the degenerate inputs the claim lists — a
`None` frame, a frame without the `aspects_parsed` column, an empty frame —
they return the explicit `None` marker or an empty table instead of raising. -/
theorem c5_totality (f : CatFrame) (maxA maxC : Nat) :
    analyze_category_aspects none = none ∧
    create_aspect_category_matrix none maxA maxC = none ∧
    (f.hasParsedCol = false →
      analyze_category_aspects (some f) = none ∧
      create_aspect_category_matrix (some f) maxA maxC = none) ∧
    (f.hasParsedCol = true → f.rows = [] →
      analyze_category_aspects (some f) = some [] ∧
      create_aspect_category_matrix (some f) maxA maxC = some []) := by
  refine ⟨rfl, rfl, fun h => ?_, fun h hr => ?_⟩
  · simp [analyze_category_aspects, create_aspect_category_matrix, h]
  · simp [analyze_category_aspects, create_aspect_category_matrix, h, hr,
      topAspectsOf, buildCounter, mostCommon, sortDescBy]

/-- C8, confirmed. Recomputation from the same input is bit-identical (the
embedded functions are functions of their argument alone — the source reads
nothing but its parameter), and beyond that the frequency table depends only
on the `aspects_parsed` column, not on any other field of the rows. -/
theorem c8_deterministic_recompute (df : Option CatFrame) (f g : CatFrame)
    (maxA maxC : Nat) (hcol : f.hasParsedCol = g.hasParsedCol)
    (hproj : f.rows.map CategoryRow.aspectsParsed =
      g.rows.map CategoryRow.aspectsParsed) :
    analyze_category_aspects df = analyze_category_aspects df ∧
    create_aspect_category_matrix df maxA maxC =
      create_aspect_category_matrix df maxA maxC ∧
    analyze_category_aspects (some f) = analyze_category_aspects (some g) := by
  refine ⟨rfl, rfl, ?_⟩
  simp only [analyze_category_aspects]
  rw [hcol, buildCounter_congr f.rows g.rows hproj]

/-- Witness for C8: two frames differing in every column except
`aspects_parsed` give the same frequency table. -/
theorem c8_deterministic_recompute_wit :
    analyze_category_aspects (some ⟨true, [⟨"A", 5, some ["x"]⟩]⟩) =
      analyze_category_aspects (some ⟨true, [⟨"B", 0, some ["x"]⟩]⟩) :=
  (c8_deterministic_recompute none ⟨true, [⟨"A", 5, some ["x"]⟩]⟩
    ⟨true, [⟨"B", 0, some ["x"]⟩]⟩ 0 0 rfl rfl).2.2

/-- C9, confirmed. The dashboard summary statistics: total is the row count,
withAspects counts rows with positive `aspectsCount`, withoutAspects is their
difference, the mean is the arithmetic mean of `aspectsCount` (`none` models
the NaN pandas yields on an empty column), and on the two-row example of
spec §8 they evaluate to 2, 2, 0 and 3/2. -/
theorem c9_summary_stats (rows : List CategoryRow) :
    total_categories rows = rows.length ∧
    categories_with_aspects rows =
      (rows.filter (fun r => 0 < r.aspectsCount)).length ∧
    categories_with_aspects rows + categories_without_aspects rows =
      total_categories rows ∧
    avg_aspects [] = none ∧
    total_categories exampleRows = 2 ∧
    categories_with_aspects exampleRows = 2 ∧
    categories_without_aspects exampleRows = 0 ∧
    avg_aspects exampleRows = some (3 / 2) := by
  refine ⟨rfl, rfl, ?_, rfl, by decide, by decide, by decide, ?_⟩
  · rw [categories_without_aspects]
    exact Nat.add_sub_cancel' (List.length_filter_le _ rows)
  · norm_num [avg_aspects, exampleRows]

/-- C10, confirmed. The load path derives `aspects_parsed` by literal
evaluation exactly when the cell is a string whose stripped value starts with
a bracket; every other cell becomes the empty list, and a row whose parsed
cell is the empty list adds nothing to the frequency counter and scores 0 in
its presence-matrix column. -/
theorem c10_load_parse_rule (x : PyVal)
    (hx : ∀ s, x = PyVal.str s → startsBracket (pyStrip s) = false)
    (rows pre post : List CategoryRow) (r : CategoryRow)
    (hr : r.aspectsParsed = some []) (nm a : String)
    (hfp : firstParsedFor rows nm = some (some [])) :
    loadParseCell x = Except.ok [] ∧
    (∀ s l, startsBracket (pyStrip s) = true → litEvalList s = some l →
      loadParseCell (PyVal.str s) = Except.ok l) ∧
    buildCounter (pre ++ r :: post) = buildCounter (pre ++ post) ∧
    cellFor rows nm a = 0 := by
  refine ⟨?_, ?_, ?_, ?_⟩
  · cases x with
    | str s => rw [loadParseCell, hx s rfl]; rfl
    | nonstr => rfl
  · intro s l hs hl
    rw [loadParseCell, hs, if_pos rfl, hl]
  · simp [buildCounter, List.foldl_append, hr, counterUpdate]
  · rw [cellFor, hfp]
    simp

/-- Witness for C10: a plain comma-separated aspect string loads as the empty
list, and an empty-list row changes neither the counter nor its matrix cells. -/
theorem c10_load_parse_rule_wit :
    loadParseCell (PyVal.str "Product/Price, Service/Staff") = Except.ok [] ∧
    (∀ s l, startsBracket (pyStrip s) = true → litEvalList s = some l →
      loadParseCell (PyVal.str s) = Except.ok l) ∧
    buildCounter ([] ++ ⟨"X", 0, some []⟩ :: exampleRows) =
      buildCounter ([] ++ exampleRows) ∧
    cellFor [⟨"X", 0, some []⟩] "X" "Product/Price" = 0 :=
  c10_load_parse_rule (PyVal.str "Product/Price, Service/Staff")
    (fun s hs => by cases hs; decide)
    [⟨"X", 0, some []⟩] [] exampleRows ⟨"X", 0, some []⟩ rfl
    "X" "Product/Price" (by decide)

/-- Row of a selected top category is a row of the frame. -/
theorem mem_rows_of_mem_topCats (f : CatFrame) (maxC : Nat) (c : CategoryRow)
    (hc : c ∈ topCatsOf f maxC) : c ∈ f.rows := by
  have h1 : c ∈ sortDescBy (fun r : CategoryRow => r.aspectsCount) f.rows :=
    List.take_subset _ _ hc
  exact (sortDescBy_perm _ f.rows).mem_iff.mp h1

/-- Distinct frame names give distinct selected-column names. -/
theorem topCats_names_nodup (f : CatFrame) (maxC : Nat)
    (hu : (f.rows.map CategoryRow.name).Nodup) :
    ((topCatsOf f maxC).map CategoryRow.name).Nodup := by
  have hperm : List.Perm
      ((sortDescBy (fun r : CategoryRow => r.aspectsCount) f.rows).map
        CategoryRow.name)
      (f.rows.map CategoryRow.name) :=
    (sortDescBy_perm _ f.rows).map CategoryRow.name
  have hnodup : ((sortDescBy (fun r : CategoryRow => r.aspectsCount) f.rows).map
      CategoryRow.name).Nodup := hperm.nodup_iff.mpr hu
  rw [topCatsOf, List.map_take]
  exact hnodup.sublist (List.take_sublist _ _)

/-- Shape of a successfully built matrix: one fold-built dict per top aspect. -/
theorem matrix_eq_of_some (f : CatFrame) (maxA maxC : Nat)
    (hp : f.hasParsedCol = true) (M : List MRow)
    (hM : create_aspect_category_matrix (some f) maxA maxC = some M) :
    M = (topAspectsOf f maxA).map (fun a =>
      (topCatsOf f maxC).foldl
        (fun row cat =>
          dictSet row cat.name (MCell.natV (cellFor f.rows cat.name a)))
        [("aspect", MCell.strV a)]) := by
  simp only [create_aspect_category_matrix] at hM
  rw [hp, if_pos rfl] at hM
  exact (Option.some.inj hM).symm

/-- C3, confirmed. Under unique category names, the matrix cell for a selected
aspect `a` and a selected category `c` whose parsed cell is the list `l` is 1
exactly when `a` is a member of `l` (exact, case-sensitive string equality),
else 0. -/
theorem c3_matrix_cell (f : CatFrame) (maxA maxC : Nat)
    (hp : f.hasParsedCol = true)
    (hu : (f.rows.map CategoryRow.name).Nodup)
    (M : List MRow)
    (hM : create_aspect_category_matrix (some f) maxA maxC = some M)
    (i : Nat) (a : String) (ha : (topAspectsOf f maxA).get? i = some a)
    (c : CategoryRow) (hc : c ∈ topCatsOf f maxC)
    (l : List String) (hl : c.aspectsParsed = some l) :
    ∃ row, M.get? i = some row ∧
      dictGet row c.name = some (MCell.natV (if a ∈ l then 1 else 0)) := by
  have hMeq := matrix_eq_of_some f maxA maxC hp M hM
  subst hMeq
  refine ⟨(topCatsOf f maxC).foldl
      (fun row cat => dictSet row cat.name (MCell.natV (cellFor f.rows cat.name a)))
      [("aspect", MCell.strV a)], ?_, ?_⟩
  · rw [List.get?_map, ha]
    rfl
  · have hget := foldl_dictSet_get
      (fun cat => MCell.natV (cellFor f.rows cat.name a))
      (topCatsOf f maxC) [("aspect", MCell.strV a)] c
      (topCats_names_nodup f maxC hu) hc
    rw [hget]
    show some (MCell.natV (cellFor f.rows c.name a)) =
      some (MCell.natV (if a ∈ l then 1 else 0))
    rw [cellFor_unique f.rows c hu (mem_rows_of_mem_topCats f maxC c hc) l hl a]

/-- Witness for C3 on the spec §8 example: the cell of aspect
`Product/Price` in column `Electronics` is 1. -/
theorem c3_matrix_cell_wit :
    ∃ row, exampleMatrix.get? 0 = some row ∧
      dictGet row "Electronics" =
        some (MCell.natV
          (if "Product/Price" ∈ ["Product/Price", "Service/Staff"] then 1 else 0)) :=
  c3_matrix_cell ⟨true, exampleRows⟩ 2 2 rfl (by decide) exampleMatrix (by decide)
    0 "Product/Price" (by decide)
    ⟨"Electronics", 2, some ["Product/Price", "Service/Staff"]⟩ (by decide)
    ["Product/Price", "Service/Staff"] rfl

/-- C6, corrected. The row count is `min maxAspects (distinct aspects)` as
claimed, and with unique category names, no category named `aspect`, a
positive aspect cap and at least one aspect occurrence, the column count
exceeds `min maxCategories (number of categories)` by exactly one, the columns
being the categories of largest `aspectsCount` with ties kept in original row
order (stable descending selection). The claim fails only when no aspect
occurs at all: then `pd.DataFrame([])` has zero columns, not one plus the
category minimum — see the counterexample. -/
theorem c6_matrix_shape (f : CatFrame) (maxA maxC : Nat)
    (hp : f.hasParsedCol = true)
    (hu : (f.rows.map CategoryRow.name).Nodup)
    (hna : "aspect" ∉ f.rows.map CategoryRow.name)
    (hA : 0 < maxA)
    (hne : buildCounter f.rows ≠ [])
    (M : List MRow)
    (hM : create_aspect_category_matrix (some f) maxA maxC = some M) :
    M.length = min maxA ((buildCounter f.rows).map Prod.fst).length ∧
    ((buildCounter f.rows).map Prod.fst).Nodup ∧
    (∀ a, a ∈ (buildCounter f.rows).map Prod.fst ↔
      ∃ r ∈ f.rows, ∃ l, r.aspectsParsed = some l ∧ a ∈ l) ∧
    frameColumns M = "aspect" :: (topCatsOf f maxC).map CategoryRow.name ∧
    (frameColumns M).length = min maxC f.rows.length + 1 ∧
    List.Perm (sortDescBy (fun r : CategoryRow => r.aspectsCount) f.rows) f.rows ∧
    (sortDescBy (fun r : CategoryRow => r.aspectsCount) f.rows).Pairwise
      (fun r1 r2 => r2.aspectsCount ≤ r1.aspectsCount) ∧
    (∀ v : ℤ, (sortDescBy (fun r : CategoryRow => r.aspectsCount) f.rows).filter
        (fun r => decide (r.aspectsCount = v)) =
      f.rows.filter (fun r => decide (r.aspectsCount = v))) := by
  have hMeq := matrix_eq_of_some f maxA maxC hp M hM
  have hlen : M.length = min maxA ((buildCounter f.rows).map Prod.fst).length := by
    rw [hMeq, List.length_map, topAspectsOf, List.length_map, List.length_take,
      mostCommon, sortDescBy_length, List.length_map]
  have hsubnames : ∀ x ∈ (topCatsOf f maxC).map CategoryRow.name,
      x ∈ f.rows.map CategoryRow.name := by
    intro x hx
    rcases List.mem_map.mp hx with ⟨c, hc, rfl⟩
    exact List.mem_map_of_mem CategoryRow.name (mem_rows_of_mem_topCats f maxC c hc)
  have hksnodup : ("aspect" :: (topCatsOf f maxC).map CategoryRow.name).Nodup := by
    rw [List.nodup_cons]
    exact ⟨fun hmem => hna (hsubnames _ hmem), topCats_names_nodup f maxC hu⟩
  have hkeys : ∀ row ∈ M, row.map Prod.fst =
      "aspect" :: (topCatsOf f maxC).map CategoryRow.name := by
    intro row hrow
    rw [hMeq] at hrow
    rcases List.mem_map.mp hrow with ⟨a, _, rfl⟩
    rw [foldl_dictSet_eq_append
      (fun cat => MCell.natV (cellFor f.rows cat.name a))
      (topCatsOf f maxC) [("aspect", MCell.strV a)]
      (topCats_names_nodup f maxC hu) ?fresh]
    · simp [List.map_append, List.map_map, Function.comp]
    case fresh =>
      intro c hc hmem
      simp only [List.map_cons, List.map_nil, List.mem_singleton] at hmem
      exact hna (hmem ▸
        List.mem_map_of_mem CategoryRow.name (mem_rows_of_mem_topCats f maxC c hc))
  have hMne : M ≠ [] := by
    refine List.length_pos.mp ?_
    rw [hlen]
    exact lt_min hA (by rw [List.length_map]; exact List.length_pos.mpr hne)
  have hcols : frameColumns M = "aspect" :: (topCatsOf f maxC).map CategoryRow.name :=
    frameColumns_uniform _ hksnodup M hMne hkeys
  refine ⟨hlen, buildCounter_keys_nodup f.rows,
    fun a => mem_buildCounter_keys a f.rows, hcols, ?_,
    sortDescBy_perm _ f.rows, sortDescBy_pairwise _ f.rows,
    fun v => sortDescBy_filter _ v f.rows⟩
  rw [hcols, List.length_cons, List.length_map, topCatsOf, List.length_take,
    sortDescBy_length]

/-- Witness for C6 on the spec §8 example with caps 2 and 2: two aspect rows
(min 2 2) and three columns (min 2 2 categories plus the aspect column). -/
theorem c6_matrix_shape_wit :
    exampleMatrix.length = min 2 ((buildCounter exampleRows).map Prod.fst).length ∧
    (frameColumns exampleMatrix).length = min 2 exampleRows.length + 1 := by
  have h := c6_matrix_shape ⟨true, exampleRows⟩ 2 2 rfl (by decide) (by decide)
    (by decide) (by decide) exampleMatrix (by decide)
  exact ⟨h.1, h.2.2.2.2.1⟩

/-- Counterexample to C6 as stated: a frame with one category and no aspect
occurrence yields `pd.DataFrame([])` — zero columns, although the claim
demands `min maxCategories 1 + 1 = 2` columns. -/
theorem c6_matrix_shape_cex :
    create_aspect_category_matrix (some ⟨true, [⟨"A", 0, some []⟩]⟩) 1000 500 =
      some [] ∧
    frameColumns [] = [] ∧
    (frameColumns ([] : List MRow)).length = 0 ∧
    min 500 1 + 1 = 2 := by
  decide
